import Mathlib

/-!
Verification development for the `nnet` repository: a shallow embedding of the
deep-autoencoder classifier (`src/nnet/DeepAutoencoderClassifier.py`) and of the
gradient-checking harness (`src/NeuralNetworkCore_test.py`), with theorems about
the properties the repository's design document states.

Matrices are lists of rows over `ℚ` (numpy float arrays embedded as exact
rationals); `np.log` is an explicit function parameter wherever the source uses
it, since the claims under study never depend on its values.
-/

set_option autoImplicit false

/-! ### Matrices as lists of rows -/

abbrev Vec := List ℚ
abbrev Mat := List Vec

/-- Dot product of two vectors (`np.dot` on 1-D arrays). -/
def dot (u v : Vec) : ℚ := (List.zipWith (fun a b => a * b) u v).sum

/-- `np.dot(A, B.T)`: entry `(i, j)` is the dot product of row `i` of `A` with row `j` of `B`. -/
def matMulT (A B : Mat) : Mat := A.map (fun ra => B.map (fun rb => dot ra rb))

/-- Number of columns of a matrix, read off its first row. -/
def matWidth (B : Mat) : ℕ := (B.headD []).length

/-- Column `j` of a matrix. -/
def matColAt (B : Mat) (j : ℕ) : Vec := B.map (fun r => r.getD j 0)

/-- `np.dot(A, B)`: ordinary matrix product. -/
def matMul (A B : Mat) : Mat :=
  A.map (fun ra => (List.range (matWidth B)).map (fun j => dot ra (matColAt B j)))

/-- Scalar multiple of a matrix. -/
def matScale (c : ℚ) (A : Mat) : Mat := A.map (List.map (fun x => c * x))

/-- Elementwise sum. -/
def matAdd (A B : Mat) : Mat := List.zipWith (List.zipWith (fun a b => a + b)) A B

/-- Elementwise difference. -/
def matSub (A B : Mat) : Mat := List.zipWith (List.zipWith (fun a b => a - b)) A B

/-- Elementwise (Hadamard) product, numpy `*`. -/
def hadamard (A B : Mat) : Mat := List.zipWith (List.zipWith (fun a b => a * b)) A B

/-- Elementwise `1 - x`. -/
def oneMinus (A : Mat) : Mat := A.map (List.map (fun x => 1 - x))

/-- `M` is an `r × c` matrix. -/
def IsMat (r c : ℕ) (M : Mat) : Prop := M.length = r ∧ ∀ row ∈ M, row.length = c

instance (r c : ℕ) (M : Mat) : Decidable (IsMat r c M) :=
  inferInstanceAs (Decidable (M.length = r ∧ ∀ row ∈ M, row.length = c))

/-! ### `DeepAutoencoderClassifier.bprop` (src/nnet/DeepAutoencoderClassifier.py, lines 69-95)

The activation cache `self.act` is passed explicitly as the argument `act`;
`wts` is the weight collection (the `wts=None` default merely reads `self.wts_`). -/

/-- One backward step through a sigmoid layer:
`dE_dz = (np.dot(wts[i], dE_dz) * a * (1 - a))[1:]` (lines 89-90). -/
def bpropStep (a w dz : Mat) : Mat :=
  (hadamard (hadamard (matMul w dz) a) (oneMinus a)).tail

/-- The `for i, a in enumerate(act[1:])` loop of `bprop` (lines 87-90) over the
reversed lists, pairing each activation with the matching reversed weight matrix:
collects `dE_dW[i] = 1/m * np.dot(a, dE_dz.T)` and threads the error `dE_dz`. -/
def bpropLoop (mQ : ℚ) : List (Mat × Mat) → Mat → List Mat × Mat
  | [], dz => ([], dz)
  | (a, w) :: rest, dz =>
      let g := matScale (1 / mQ) (matMulT a dz)
      let res := bpropLoop mQ rest (bpropStep a w dz)
      (g :: res.1, res.2)

/-- Error threading of the `bprop` loop in isolation: the value of `dE_dz`
after walking a list of (activation, weight) pairs. -/
def dzFold : List (Mat × Mat) → Mat → Mat
  | [], dz => dz
  | (a, w) :: rest, dz => dzFold rest (bpropStep a w dz)

/-- `dE_dW[-1][1:] += self.decay * wts[-1][1:]` (line 92): add the decay term to
all non-bias rows of a gradient matrix. -/
def addDecayRows (decay : ℚ) (w g : Mat) : Mat :=
  match g with
  | [] => []
  | r0 :: rest => r0 :: matAdd rest (matScale decay w.tail)

/-- `DeepAutoencoderClassifier.bprop` (lines 69-95): reverses `wts` and `act`,
seeds the error with `act[0] - y`, runs the layer loop, computes the remaining
gradient `1/m * np.dot(_X, dE_dz.T)`, adds the decay rows, and re-reverses. -/
def bprop (decay : ℚ) (X y : Mat) (wts act : List Mat) : List Mat :=
  let wtsR := wts.reverse
  let actR := act.reverse
  let mQ : ℚ := ((X.headD []).length : ℚ)
  let dz0 := matSub (actR.headD []) y
  let res := bpropLoop mQ (actR.tail.zip wtsR) dz0
  let lastG := addDecayRows decay (wtsR.getLastD []) (matScale (1 / mQ) (matMulT X res.2))
  (res.1 ++ [lastG]).reverse

/-! ### Spec-side restatement of the backpropagated errors (claim C4's wording) -/

/-- The per-layer error signals of the claim, indexed by distance `r` from the
output layer: `errFromTop 0 = softmax output − y`, and each earlier error is the
back-propagated error times `a * (1 - a)` with the bias row (row 0) removed. -/
def errFromTop (wts act : List Mat) (y : Mat) : ℕ → Mat
  | 0 => matSub (act.getLastD []) y
  | r + 1 =>
      let a := act.getD (act.length - 2 - r) []
      let w := wts.getD (wts.length - 1 - r) []
      bpropStep a w (errFromTop wts act y r)

/-- The gradient list as the claim describes it, in original layer order: one
gradient per weight matrix, gradient `k ≥ 1` being `1/m * act[k-1] ⬝ errᵀ` for
the error entering layer `k`, and gradient `0` using the bias-augmented input
`X` (with the decay rows the code adds — the code puts them on gradient 0). -/
def bpropSpec (decay : ℚ) (X y : Mat) (wts act : List Mat) : List Mat :=
  let L := wts.length
  let mQ : ℚ := ((X.headD []).length : ℚ)
  (List.range L).map (fun k =>
    if k = 0 then
      addDecayRows decay (wts.getD 0 [])
        (matScale (1 / mQ) (matMulT X (errFromTop wts act y (L - 1))))
    else
      matScale (1 / mQ) (matMulT (act.getD (k - 1) []) (errFromTop wts act y (L - 1 - k))))

/-! ### `DeepAutoencoderClassifier.cost_function` (lines 44-53) -/

/-- Sum of the squares of all entries of a matrix (`np.sum(M ** 2)`). -/
def sumSq (M : Mat) : ℚ := (M.map (fun r => (r.map (fun x => x ^ 2)).sum)).sum

/-- `np.mean(np.sum(-1.0 * y * np.log(a), axis=0))`: total of `-y * log a` over
all entries, divided by the number of columns.  `log` is a function parameter
(numpy's `np.log`, external to the claims under study). -/
def crossEntMean (log : ℚ → ℚ) (y a : Mat) : ℚ :=
  (List.zipWith (fun yr ar => (List.zipWith (fun yv av => -(yv * log av)) yr ar).sum) y a).sum
    / ((y.headD []).length : ℚ)

/-- `DeepAutoencoderClassifier.cost_function` (line 52): cross-entropy data term
plus `0.5 * decay * np.sum(wts[-1][1:] ** 2)` — decay only on the non-bias rows
of the final weight matrix.  `actLast` is the cached `self.act[-1]`. -/
def cost_function (log : ℚ → ℚ) (decay : ℚ) (y actLast : Mat) (wts : List Mat) : ℚ :=
  crossEntMean log y actLast + 1 / 2 * decay * sumSq ((wts.getLastD []).tail)

/-! ### `DeepAutoencoderClassifier.predict` (lines 97-123) -/

/-- `np.argmax` on a 1-D array: index of the first occurrence of the maximum
(index 0 on an empty array, a case numpy rejects). -/
def argmaxIdx : Vec → ℕ
  | [] => 0
  | [_] => 0
  | x :: v :: t =>
      let j := argmaxIdx (v :: t)
      if x < (v :: t).getD j 0 then j + 1 else 0

/-- `DeepAutoencoderClassifier.predict` (lines 97-123): prepend a bias row of
ones (`np.append(np.ones([1,m]), X, axis=0)`), run forward propagation, take the
per-column argmax of the final activation, and — when labels are supplied — also
return `1.0 - np.mean(1.0*(pred == np.argmax(y, axis=0)))`.

Modelled from the spec: `self.compute_activations` lives in the missing
`NeuralNetworkCore` module; per the spec it "runs forward propagation", so it is
taken here as a function `computeAct` from the augmented input to the list of
layer activations. -/
def predict (computeAct : Mat → List Mat) (X : Mat) (y : Option Mat) :
    List ℕ × Option ℚ :=
  let m := (X.headD []).length
  let Xb := (List.replicate m (1 : ℚ)) :: X
  let act := computeAct Xb
  let pred := (List.range m).map (fun j => argmaxIdx (matColAt (act.getLastD []) j))
  match y with
  | none => (pred, none)
  | some y0 =>
      let labels := (List.range ((y0.headD []).length)).map (fun j => argmaxIdx (matColAt y0 j))
      let mce : ℚ :=
        1 - (((pred.zip labels).countP (fun p => p.1 == p.2) : ℕ) : ℚ) / (pred.length : ℚ)
      (pred, some mce)

/-! ### The gradient-checking harness (src/NeuralNetworkCore_test.py)

The harness treats the network cost as a black-box function of the flattened
parameter vector (`fprop` followed by `cost` on rerolled weights, code for which
lives in the missing `Autoencoder`/`SoftmaxClassifier` modules), so the cost is
a function parameter `f` here. -/

/-- Number of sampled indices: `idx = np.random.permutation(n)[:(n/20)]`
(lines 42, 90, 138; Python 2 integer division). -/
def numSampled (n : ℕ) : ℕ := n / 20

/-- The sampled index list: the first `n/20` entries of a permutation of
`range n`. -/
def sampledIdx (perm : List ℕ) (n : ℕ) : List ℕ := perm.take (numSampled n)

/-- `n = sum(np.size(w) for w in nnet.wts_)` for weight shapes
`(n1+1) × n2` over consecutive layer sizes (lines 29-30, 41). -/
def paramCount (n_nodes : List ℕ) : ℕ :=
  ((n_nodes.dropLast.zip n_nodes.tail).map (fun p => (p.1 + 1) * p.2)).sum

/-- `w_plus[x] += eps` on a fresh copy of the flat weight vector: perturb the
single coordinate `x` by `e`, all others fixed (lines 46-51). -/
def perturb (w : Vec) (x : ℕ) (e : ℚ) : Vec := w.set x (w.getD x 0 + e)

/-- `ngrad[i] = (loss_plus - loss_minus) / (2*eps)` (line 61): central
finite-difference estimate of coordinate `x` of the gradient of `f`. -/
def numGrad (f : Vec → ℚ) (w : Vec) (eps : ℚ) (x : ℕ) : ℚ :=
  (f (perturb w x eps) - f (perturb w x (-eps))) / (2 * eps)

/-- The list `ngrad` produced by the harness loop (lines 45-61). -/
def ngradList (f : Vec → ℚ) (w : Vec) (eps : ℚ) (idx : List ℕ) : List ℚ :=
  idx.map (numGrad f w eps)

/-- `cerr = np.mean(np.abs(ngrad - bgrad[idx]))` (line 64). -/
def cerr (f : Vec → ℚ) (w : Vec) (eps : ℚ) (bgrad : Vec) (idx : List ℕ) : ℚ :=
  (List.zipWith (fun a b => |a - b|) (ngradList f w eps idx)
      (idx.map (fun x => bgrad.getD x 0))).sum / (idx.length : ℚ)

/-- `self.assertLess(cerr, err_tol)` (line 65): the test passes exactly when the
mean absolute difference is strictly below the tolerance. -/
def gradCheckPasses (tol : ℚ) (f : Vec → ℚ) (w : Vec) (eps : ℚ) (bgrad : Vec)
    (idx : List ℕ) : Prop :=
  cerr f w eps bgrad idx < tol

/-- `err_tol = 1e-9` in `test_Autoencoder` (line 36). -/
def aeErrTol : ℚ := 1 / 10 ^ 9

/-- `eps = 1e-4` in `test_Autoencoder` (line 37). -/
def aeEps : ℚ := 1 / 10 ^ 4

/-- `err_tol = 1e-10` in `test_SoftmaxClassifier_single_layer` (line 84). -/
def sclSingleErrTol : ℚ := 1 / 10 ^ 10

/-- `eps = 1e-5` in `test_SoftmaxClassifier_single_layer` (line 85). -/
def sclSingleEps : ℚ := 1 / 10 ^ 5

/-- `err_tol = 1e-10` in `test_SoftmaxClassifier_multi_layer` (line 132). -/
def sclMultiErrTol : ℚ := 1 / 10 ^ 10

/-- `eps = 1e-5` in `test_SoftmaxClassifier_multi_layer` (line 133). -/
def sclMultiEps : ℚ := 1 / 10 ^ 5

/-! ### `unroll` / `reroll`

Modelled from the spec: these live in the missing `nnetutils` module.  Per the
spec, the flattened parameter vector is "produced by concatenating all weight
matrices in layer order ('unroll') and its inverse ('reroll')", the matrices
having shapes `(n_nodes[i]+1) × n_nodes[i+1]` (numpy arrays are row-major). -/

/-- Modelled from the spec: `nnetutils.unroll` — concatenate all weight matrices
in layer order into one flat vector, each matrix flattened row-major. -/
def unroll (wts : List Mat) : Vec := (wts.map (fun M => M.flatten)).flatten

/-- Reshape a flat vector into an `r × c` matrix, row-major. -/
def rerollMat : ℕ → ℕ → Vec → Mat
  | 0, _, _ => []
  | r + 1, c, v => v.take c :: rerollMat r c (v.drop c)

/-- Helper for `reroll`: consume the flat vector shape by shape. -/
def rerollAux : Vec → List (ℕ × ℕ) → List Mat
  | _, [] => []
  | v, p :: rest =>
      rerollMat (p.1 + 1) p.2 (v.take ((p.1 + 1) * p.2)) ::
        rerollAux (v.drop ((p.1 + 1) * p.2)) rest

/-- Modelled from the spec: `nnetutils.reroll` — rebuild, from a flat vector and
the layer topology `n_nodes`, the weight matrices of shapes
`(n_nodes[i]+1) × n_nodes[i+1]`. -/
def reroll (v : Vec) (n_nodes : List ℕ) : List Mat :=
  rerollAux v (n_nodes.dropLast.zip n_nodes.tail)

/-! ### The stacked autoencoders and `pre_train`
(src/nnet/DeepAutoencoderClassifier.py, lines 11-42)

The `Autoencoder` class itself is in a module not under `src/`; per the spec its
constructor records the topology and the hyperparameters `decay`, `rho`, `beta`,
and its `fit` / `transform` methods are the per-layer training step and the
learned encoding.  `fit` and `transform` are therefore function parameters of
the embedding; everything the claims quantify over is the wiring of
`DeepAutoencoderClassifier.__init__` and `pre_train`, which is in `src/`. -/

/-- State of one stacked autoencoder: constructor hyperparameters plus its
weight collection `wts_` (mutated by `fit`). -/
structure AE where
  d : ℕ
  n_hid : ℕ
  decay : ℚ
  rho : ℚ
  beta : ℚ
  wts : List Mat
deriving DecidableEq

/-- Junk autoencoder used as a `getD` default. -/
def aeDefault : AE := ⟨0, 0, 0, 0, 0, []⟩

/-- Modelled from the spec: the `Autoencoder` constructor (module not under
`src/`) stores the topology and hyperparameters; the initial weight collection
comes from an initialization scheme `initW`. -/
def mkAE (initW : ℕ → ℕ → List Mat) (d n_hid : ℕ) (decay rho beta : ℚ) : AE :=
  ⟨d, n_hid, decay, rho, beta, initW d n_hid⟩

/-- `DeepAutoencoderClassifier.__init__`, lines 14-17: `stacked_ae[0]` uses
`sae_decay[0], rho[0], beta[0]`, and the loop
`for i,(n1,n2) in enumerate(zip(n_hid[:-1], n_hid[1:]))` builds
`stacked_ae[i+1] = Autoencoder(d=n1, n_hid=n2, decay=sae_decay[i], rho=rho[i], beta=beta[i])`. -/
def mkStackedAE (initW : ℕ → ℕ → List Mat) (d : ℕ) (n_hid : List ℕ)
    (sae_decay rho beta : List ℚ) : List AE :=
  mkAE initW d (n_hid.getD 0 0) (sae_decay.getD 0 0) (rho.getD 0 0) (beta.getD 0 0) ::
    (n_hid.dropLast.zip n_hid.tail).enum.map (fun p =>
      mkAE initW p.2.1 p.2.2 (sae_decay.getD p.1 0) (rho.getD p.1 0) (beta.getD p.1 0))

/-- The fields of a `DeepAutoencoderClassifier` instance the source file reads
or writes: the stacked autoencoders, the network weight collection `wts_`, the
bias collection `bs_`, the activation cache `act`, and the fine-tuning decay. -/
structure DAEC where
  stacked_ae : List AE
  wts_ : List Mat
  bs_ : List Mat
  act : List Mat
  decay : ℚ
deriving DecidableEq

/-- The operations `pre_train` performs, for auditing what the method does:
fitting stacked autoencoder `i`, transforming the running data through it,
copying its encoding weights into layer `i`, and (never emitted by the source)
an end-to-end fine-tuning pass of the full network. -/
inductive PTEvent where
  | fitSAE : ℕ → PTEvent
  | transformData : ℕ → PTEvent
  | copyWeights : ℕ → PTEvent
  | fineTune : PTEvent
deriving DecidableEq

/-- The `for i, ae in enumerate(self.stacked_ae[1:])` loop of `pre_train`
(lines 39-42): fit autoencoder `i+1` on the running transformed data with
budgets `n_iter[i]`, `learn_rate[i]`, `alpha[i]`; copy its encoding weight
matrix into `wts_[i+1]`; transform the data onward.  Also returns the list of
operations performed. -/
def pre_trainLoop (fitAE : AE → Mat → String → ℕ → ℚ → ℚ → AE)
    (transform : AE → Mat → Mat) (method : String) (n_iter : List ℕ)
    (learn_rate alpha : List ℚ) :
    List AE → ℕ → DAEC → Mat → DAEC × List PTEvent
  | [], _, s, _ => (s, [])
  | a :: rest, i, s, Xt =>
      let a2 := fitAE a Xt method (n_iter.getD i 0) (learn_rate.getD i 0) (alpha.getD i 0)
      let s2 := { s with stacked_ae := s.stacked_ae.set (i + 1) a2,
                         wts_ := s.wts_.set (i + 1) (a2.wts.headD []) }
      let res := pre_trainLoop fitAE transform method n_iter learn_rate alpha
        rest (i + 1) s2 (transform a2 Xt)
      (res.1,
        PTEvent.fitSAE (i + 1) :: PTEvent.copyWeights (i + 1) ::
          PTEvent.transformData (i + 1) :: res.2)

/-- `DeepAutoencoderClassifier.pre_train` (lines 28-42).  When `X` is `none`
(the Python default `X=None`) the body is skipped entirely.  Otherwise: fit the
first autoencoder with `n_iter[0], learn_rate[0], alpha[0]`, transform `X`
through it, copy its encoding weights into `wts_[0]`, then run the loop over the
remaining autoencoders.  Returns the new instance state together with the list
of operations performed. -/
def pre_train (fitAE : AE → Mat → String → ℕ → ℚ → ℚ → AE)
    (transform : AE → Mat → Mat) (s : DAEC) (X : Option Mat) (method : String)
    (n_iter : List ℕ) (learn_rate alpha : List ℚ) : DAEC × List PTEvent :=
  match X with
  | none => (s, [])
  | some X0 =>
      let a0 := fitAE (s.stacked_ae.headD aeDefault) X0 method (n_iter.getD 0 0)
        (learn_rate.getD 0 0) (alpha.getD 0 0)
      let X1 := transform a0 X0
      let s1 := { s with stacked_ae := s.stacked_ae.set 0 a0,
                         wts_ := s.wts_.set 0 (a0.wts.headD []) }
      let res := pre_trainLoop fitAE transform method n_iter learn_rate alpha
        s.stacked_ae.tail 0 s1 X1
      (res.1,
        PTEvent.fitSAE 0 :: PTEvent.transformData 0 :: PTEvent.copyWeights 0 :: res.2)

/-! ## Theorems -/

/-- C1: the harness is documented (spec and the code's own comments "check 20%
of the values", "choose a random 20%") as sampling 20% of the flattened
parameter count, but `idx = np.random.permutation(n)[:(n/20)]` keeps only
⌊n/20⌋ ≈ 5% of the indices.  For the single-hidden-layer softmax test the
parameter count is n = 453, the code samples 22 indices, while 20% of 453 is
90 (here `453 * 20 / 100`). -/
theorem c1_sample_count_code_bug :
    paramCount [5, 50, 3] = 453 ∧
    numSampled 453 = 22 ∧
    (sampledIdx (List.range 453) 453).length = 22 ∧
    453 * 20 / 100 = 90 ∧ (22 : ℕ) ≠ 90 := by
  refine ⟨by decide, by decide, ?_, by decide, by decide⟩
  simp [sampledIdx, numSampled]

/-- C3: the gradient-check comparison passes exactly when the mean (over the
sampled indices) of the absolute difference between the central-difference
estimate `(loss(+ε) − loss(−ε)) / 2ε` and the matching entry of the analytic
gradient is strictly below the fixed tolerance, and the tolerances are 1e-9
with ε = 1e-4 for the autoencoder test and 1e-10 with ε = 1e-5 for both the
single- and multi-hidden-layer softmax tests. -/
theorem c3_gradcheck_pass_iff (tol : ℚ) (f : Vec → ℚ) (w : Vec) (eps : ℚ)
    (bgrad : Vec) (idx : List ℕ) :
    (gradCheckPasses tol f w eps bgrad idx ↔
      (idx.map (fun x =>
          |(f (perturb w x eps) - f (perturb w x (-eps))) / (2 * eps) - bgrad.getD x 0|)).sum
        / (idx.length : ℚ) < tol) ∧
    aeErrTol = 1 / 1000000000 ∧ aeEps = 1 / 10000 ∧
    sclSingleErrTol = 1 / 10000000000 ∧ sclSingleEps = 1 / 100000 ∧
    sclMultiErrTol = 1 / 10000000000 ∧ sclMultiEps = 1 / 100000 := by
  refine ⟨?_, by norm_num [aeErrTol], by norm_num [aeEps],
    by norm_num [sclSingleErrTol], by norm_num [sclSingleEps],
    by norm_num [sclMultiErrTol], by norm_num [sclMultiEps]⟩
  unfold gradCheckPasses cerr ngradList numGrad
  rw [List.zipWith_map, List.zipWith_same]

/-- C10: calling `pre_train` with `X = None` (the default) performs no action:
the returned instance state is the input state, every field included, and the
operation trace is empty. -/
theorem c10_pre_train_none_is_noop (fitAE : AE → Mat → String → ℕ → ℚ → ℚ → AE)
    (transform : AE → Mat → Mat) (s : DAEC) (method : String)
    (n_iter : List ℕ) (learn_rate alpha : List ℚ) :
    pre_train fitAE transform s none method n_iter learn_rate alpha = (s, []) := rfl

/-- Membership in the operation trace of the `pre_train` loop: exactly the fit,
copy and transform events for the autoencoders it walks over. -/
theorem pre_trainLoop_events_mem (fitAE : AE → Mat → String → ℕ → ℚ → ℚ → AE)
    (transform : AE → Mat → Mat) (method : String) (n_iter : List ℕ)
    (learn_rate alpha : List ℚ) :
    ∀ (aes : List AE) (i : ℕ) (s : DAEC) (Xt : Mat) (e : PTEvent),
      (e ∈ (pre_trainLoop fitAE transform method n_iter learn_rate alpha aes i s Xt).2 ↔
        ∃ j < aes.length, e = PTEvent.fitSAE (i + 1 + j) ∨
          e = PTEvent.copyWeights (i + 1 + j) ∨ e = PTEvent.transformData (i + 1 + j)) := by
  intro aes
  induction aes with
  | nil => intro i s Xt e; simp [pre_trainLoop]
  | cons a rest ih =>
      intro i s Xt e
      simp only [pre_trainLoop, List.mem_cons, ih]
      constructor
      · rintro (rfl | rfl | rfl | ⟨j, hj, h⟩)
        · exact ⟨0, by simp, Or.inl rfl⟩
        · exact ⟨0, by simp, Or.inr (Or.inl rfl)⟩
        · exact ⟨0, by simp, Or.inr (Or.inr rfl)⟩
        · refine ⟨j + 1, by simp only [List.length_cons]; omega, ?_⟩
          have harith : i + 1 + 1 + j = i + 1 + (j + 1) := by omega
          rw [harith] at h
          exact h
      · rintro ⟨j, hj, h⟩
        rcases j with _ | j
        · simp only [Nat.add_zero] at h
          rcases h with h | h | h
          · exact Or.inl h
          · exact Or.inr (Or.inl h)
          · exact Or.inr (Or.inr (Or.inl h))
        · have hj' : j < rest.length := by
            simp only [List.length_cons] at hj; omega
          have harith : i + 1 + (j + 1) = i + 1 + 1 + j := by omega
          rw [harith] at h
          exact Or.inr (Or.inr (Or.inr ⟨j, hj', h⟩))

/-- C2 counterexample: on a concrete instance with two stacked autoencoders,
the operation trace of `pre_train` contains no end-to-end fine-tuning pass —
refuting the claim that `pre_train`, after fitting the autoencoders and copying
their encoding weights, "then fine-tunes the whole stack end-to-end". -/
theorem c2_no_finetune_counterexample :
    PTEvent.fineTune ∉
      (pre_train (fun a _ _ _ _ _ => a) (fun _ X => X)
        ⟨[aeDefault, aeDefault], [[], [], []], [], [], 0⟩
        (some [[1]]) "L-BFGS" [1, 1] [1, 1] [1, 1]).2 := by decide

/-- C2 (amended): `pre_train` with data sequentially fits each stacked
autoencoder and copies each one's encoding weight matrix into the corresponding
layer of the full network, but performs no end-to-end fine-tuning itself: its
operation trace contains a fit and a weight copy for every stacked autoencoder
and never a fine-tuning pass (fine-tuning requires a separate `fit` call). -/
theorem c2_pre_train_fits_copies_no_finetune
    (fitAE : AE → Mat → String → ℕ → ℚ → ℚ → AE) (transform : AE → Mat → Mat)
    (s : DAEC) (X : Mat) (method : String) (n_iter : List ℕ)
    (learn_rate alpha : List ℚ) :
    PTEvent.fineTune ∉
      (pre_train fitAE transform s (some X) method n_iter learn_rate alpha).2 ∧
    ∀ i < s.stacked_ae.length,
      PTEvent.fitSAE i ∈
        (pre_train fitAE transform s (some X) method n_iter learn_rate alpha).2 ∧
      PTEvent.copyWeights i ∈
        (pre_train fitAE transform s (some X) method n_iter learn_rate alpha).2 := by
  constructor
  · simp only [pre_train, List.mem_cons,
      pre_trainLoop_events_mem fitAE transform method n_iter learn_rate alpha]
    rintro (h | h | h | ⟨j, hj, h | h | h⟩) <;> simp at h
  · intro i hi
    simp only [pre_train, List.mem_cons,
      pre_trainLoop_events_mem fitAE transform method n_iter learn_rate alpha]
    rcases i with _ | i
    · exact ⟨Or.inl rfl, Or.inr (Or.inr (Or.inl rfl))⟩
    · have hlen : i < s.stacked_ae.tail.length := by
        simp only [List.length_tail]; omega
      refine ⟨Or.inr (Or.inr (Or.inr ⟨i, hlen, Or.inl ?_⟩)),
        Or.inr (Or.inr (Or.inr ⟨i, hlen, Or.inr (Or.inl ?_)⟩))⟩ <;>
        · congr 1
          omega

/-- An `r × c` matrix flattens to a vector of length `r * c`. -/
theorem flatten_length_of_isMat {r c : ℕ} {M : Mat} (h : IsMat r c M) :
    M.flatten.length = r * c := by
  induction M generalizing r with
  | nil =>
      obtain ⟨h1, -⟩ := h
      simp only [List.length_nil] at h1
      simp [← h1]
  | cons row M ih =>
      obtain ⟨hlen, hrow⟩ := h
      subst hlen
      have hM : IsMat M.length c M := ⟨rfl, fun x hx => hrow x (List.mem_cons_of_mem _ hx)⟩
      simp only [List.flatten_cons, List.length_append, ih hM,
        hrow row (List.mem_cons_self _ _), List.length_cons]
      ring

/-- Reshaping the row-major flattening of an `r × c` matrix (with anything
appended after it) recovers the matrix. -/
theorem rerollMat_flatten_append {r c : ℕ} {M : Mat} (h : IsMat r c M)
    (rest : Vec) : rerollMat r c (M.flatten ++ rest) = M := by
  induction M generalizing r rest with
  | nil =>
      obtain ⟨h1, -⟩ := h
      simp only [List.length_nil] at h1
      rw [← h1]
      rfl
  | cons row M ih =>
      obtain ⟨hlen, hrow⟩ := h
      subst hlen
      have hM : IsMat M.length c M := ⟨rfl, fun x hx => hrow x (List.mem_cons_of_mem _ hx)⟩
      have hc : row.length = c := hrow row (List.mem_cons_self _ _)
      have ht : (row ++ (M.flatten ++ rest)).take c = row := by
        rw [← hc]; exact List.take_left _ _
      have hd : (row ++ (M.flatten ++ rest)).drop c = M.flatten ++ rest := by
        rw [← hc]; exact List.drop_left _ _
      simp only [List.length_cons, rerollMat, List.flatten_cons, List.append_assoc, ht, hd,
        ih hM]

/-- Round trip of the flattened vector through `rerollAux`, for any shape list
the weight collection matches. -/
theorem rerollAux_unroll :
    ∀ (ps : List (ℕ × ℕ)) (wts : List Mat), wts.length = ps.length →
      (∀ i < wts.length,
        IsMat ((ps.getD i (0, 0)).1 + 1) ((ps.getD i (0, 0)).2) (wts.getD i [])) →
      rerollAux (unroll wts) ps = wts := by
  intro ps
  induction ps with
  | nil =>
      intro wts hlen _
      rw [List.length_eq_zero.mp hlen]
      rfl
  | cons p ps ih =>
      intro wts hlen hshape
      rcases wts with _ | ⟨M, wts⟩
      · simp at hlen
      · have hM : IsMat (p.1 + 1) p.2 M := by
          have := hshape 0 (by simp)
          simpa using this
        have hMlen : M.flatten.length = (p.1 + 1) * p.2 := flatten_length_of_isMat hM
        have hunroll : unroll (M :: wts) = M.flatten ++ unroll wts := by
          simp [unroll]
        have ht : (M.flatten ++ unroll wts).take ((p.1 + 1) * p.2) = M.flatten := by
          rw [← hMlen]; exact List.take_left _ _
        have hd : (M.flatten ++ unroll wts).drop ((p.1 + 1) * p.2) = unroll wts := by
          rw [← hMlen]; exact List.drop_left _ _
        have hre : rerollMat (p.1 + 1) p.2 M.flatten = M := by
          have := rerollMat_flatten_append hM []
          rwa [List.append_nil] at this
        simp only [rerollAux, hunroll, ht, hd, hre]
        rw [ih wts (by simpa using hlen)]
        intro i hi
        have := hshape (i + 1) (by simp only [List.length_cons]; omega)
        simpa using this

/-- C8: for every weight collection whose matrices have the shapes
`(n_nodes[i]+1) × n_nodes[i+1]` determined by the layer topology, flattening it
with `unroll` and reshaping with `reroll` over the same topology reconstructs
the collection exactly — identical shapes and values. -/
theorem c8_unroll_reroll_roundtrip (n_nodes : List ℕ) (wts : List Mat)
    (hlen : wts.length = (n_nodes.dropLast.zip n_nodes.tail).length)
    (hshape : ∀ i < wts.length,
      IsMat (((n_nodes.dropLast.zip n_nodes.tail).getD i (0, 0)).1 + 1)
        (((n_nodes.dropLast.zip n_nodes.tail).getD i (0, 0)).2) (wts.getD i [])) :
    reroll (unroll wts) n_nodes = wts :=
  rerollAux_unroll _ _ hlen hshape

/-- C8 witness: the round trip at the concrete topology `[1, 2, 1]` with the
matching collection of a `2 × 2` and a `3 × 1` weight matrix. -/
theorem c8_unroll_reroll_roundtrip_witness :
    ([[[1, 2], [3, 4]], [[5], [6], [7]]] : List Mat).length =
      (([1, 2, 1] : List ℕ).dropLast.zip ([1, 2, 1] : List ℕ).tail).length ∧
    (∀ i < ([[[1, 2], [3, 4]], [[5], [6], [7]]] : List Mat).length,
      IsMat (((([1, 2, 1] : List ℕ).dropLast.zip ([1, 2, 1] : List ℕ).tail).getD i (0, 0)).1 + 1)
        (((([1, 2, 1] : List ℕ).dropLast.zip ([1, 2, 1] : List ℕ).tail).getD i (0, 0)).2)
        (([[[1, 2], [3, 4]], [[5], [6], [7]]] : List Mat).getD i [])) ∧
    reroll (unroll [[[1, 2], [3, 4]], [[5], [6], [7]]]) [1, 2, 1] =
      [[[1, 2], [3, 4]], [[5], [6], [7]]] :=
  ⟨by decide, by decide,
    c8_unroll_reroll_roundtrip [1, 2, 1] [[[1, 2], [3, 4]], [[5], [6], [7]]]
      (by decide) (by decide)⟩

/-- `getD` after `set` at the same (in-range) position reads the new value. -/
theorem getD_set_self_of_lt {α : Type*} (l : List α) (j : ℕ) (x d : α)
    (h : j < l.length) : (l.set j x).getD j d = x := by
  rw [List.getD_eq_getElem?_getD, List.getElem?_set_self h, Option.getD_some]

/-- `getD` after `set` at a different position is unchanged. -/
theorem getD_set_ne {α : Type*} (l : List α) (i j : ℕ) (x d : α) (h : i ≠ j) :
    (l.set i x).getD j d = l.getD j d := by
  rw [List.getD_eq_getElem?_getD, List.getElem?_set_ne h, ← List.getD_eq_getElem?_getD]

/-- The `pre_train` loop never changes the lengths of the stacked-autoencoder
list or of the weight collection. -/
theorem pre_trainLoop_lengths (fitAE : AE → Mat → String → ℕ → ℚ → ℚ → AE)
    (transform : AE → Mat → Mat) (method : String) (n_iter : List ℕ)
    (learn_rate alpha : List ℚ) :
    ∀ (aes : List AE) (i : ℕ) (s : DAEC) (Xt : Mat),
      (pre_trainLoop fitAE transform method n_iter learn_rate alpha aes i s Xt).1.stacked_ae.length
          = s.stacked_ae.length ∧
      (pre_trainLoop fitAE transform method n_iter learn_rate alpha aes i s Xt).1.wts_.length
          = s.wts_.length := by
  intro aes
  induction aes with
  | nil => intro i s Xt; exact ⟨rfl, rfl⟩
  | cons a rest ih =>
      intro i s Xt
      simp only [pre_trainLoop]
      refine ⟨?_, ?_⟩ <;> simp [(ih (i + 1) _ _).1, (ih (i + 1) _ _).2]

/-- The `pre_train` loop started at counter `i` writes only positions `≥ i + 1`:
positions `j ≤ i` of both collections are untouched. -/
theorem pre_trainLoop_frame (fitAE : AE → Mat → String → ℕ → ℚ → ℚ → AE)
    (transform : AE → Mat → Mat) (method : String) (n_iter : List ℕ)
    (learn_rate alpha : List ℚ) :
    ∀ (aes : List AE) (i : ℕ) (s : DAEC) (Xt : Mat) (j : ℕ), j ≤ i →
      (pre_trainLoop fitAE transform method n_iter learn_rate alpha aes i s Xt).1.stacked_ae.getD j aeDefault
          = s.stacked_ae.getD j aeDefault ∧
      (pre_trainLoop fitAE transform method n_iter learn_rate alpha aes i s Xt).1.wts_.getD j []
          = s.wts_.getD j [] := by
  intro aes
  induction aes with
  | nil => intro i s Xt j _; exact ⟨rfl, rfl⟩
  | cons a rest ih =>
      intro i s Xt j hj
      simp only [pre_trainLoop]
      obtain ⟨ih1, ih2⟩ := ih (i + 1) _ _ j (by omega)
      rw [ih1, ih2]
      constructor
      · exact getD_set_ne _ _ _ _ _ (by omega)
      · exact getD_set_ne _ _ _ _ _ (by omega)

/-- After the loop, every position it processed holds a weight matrix equal to
the encoding weights (head of the weight collection) of the autoencoder now
stored at the same position. -/
theorem pre_trainLoop_copies (fitAE : AE → Mat → String → ℕ → ℚ → ℚ → AE)
    (transform : AE → Mat → Mat) (method : String) (n_iter : List ℕ)
    (learn_rate alpha : List ℚ) :
    ∀ (aes : List AE) (i : ℕ) (s : DAEC) (Xt : Mat) (j : ℕ),
      i + 1 ≤ j → j ≤ i + aes.length → j < s.stacked_ae.length → j < s.wts_.length →
      (pre_trainLoop fitAE transform method n_iter learn_rate alpha aes i s Xt).1.wts_.getD j []
        = ((pre_trainLoop fitAE transform method n_iter learn_rate alpha aes i s Xt).1.stacked_ae.getD j aeDefault).wts.headD [] := by
  intro aes
  induction aes with
  | nil =>
      intro i s Xt j h1 h2 _ _
      simp only [List.length_nil, Nat.add_zero] at h2
      omega
  | cons a rest ih =>
      intro i s Xt j h1 h2 hs hw
      simp only [pre_trainLoop]
      by_cases hji : j = i + 1
      · subst hji
        obtain ⟨f1, f2⟩ := pre_trainLoop_frame fitAE transform method n_iter learn_rate alpha
          rest (i + 1) _ _ (i + 1) le_rfl
        rw [f1, f2]
        have e1 := getD_set_self_of_lt s.wts_ (i + 1)
          ((fitAE a Xt method (n_iter.getD i 0) (learn_rate.getD i 0) (alpha.getD i 0)).wts.headD [])
          [] hw
        have e2 := getD_set_self_of_lt s.stacked_ae (i + 1)
          (fitAE a Xt method (n_iter.getD i 0) (learn_rate.getD i 0) (alpha.getD i 0))
          aeDefault hs
        simp only [e1, e2]
      · exact ih (i + 1) _ _ j (by omega) (by simp only [List.length_cons] at h2; omega)
          (by simpa using hs) (by simpa using hw)

/-- After the loop, position `i + 1 + j` of the stacked-autoencoder list holds
the result of fitting the `j`-th walked autoencoder with the budgets at list
index `i + j`. -/
theorem pre_trainLoop_fit_budget (fitAE : AE → Mat → String → ℕ → ℚ → ℚ → AE)
    (transform : AE → Mat → Mat) (method : String) (n_iter : List ℕ)
    (learn_rate alpha : List ℚ) :
    ∀ (aes : List AE) (i : ℕ) (s : DAEC) (Xt : Mat) (j : ℕ), j < aes.length →
      i + 1 + j < s.stacked_ae.length →
      ∃ X2,
        (pre_trainLoop fitAE transform method n_iter learn_rate alpha aes i s Xt).1.stacked_ae.getD (i + 1 + j) aeDefault
          = fitAE (aes.getD j aeDefault) X2 method (n_iter.getD (i + j) 0)
              (learn_rate.getD (i + j) 0) (alpha.getD (i + j) 0) := by
  intro aes
  induction aes with
  | nil => intro i s Xt j hj; simp at hj
  | cons a rest ih =>
      intro i s Xt j hj hlen
      simp only [pre_trainLoop]
      rcases j with _ | j
      · refine ⟨Xt, ?_⟩
        obtain ⟨f1, -⟩ := pre_trainLoop_frame fitAE transform method n_iter learn_rate alpha
          rest (i + 1) _ _ (i + 1) le_rfl
        simp only [Nat.add_zero] at hlen ⊢
        rw [f1]
        have e2 := getD_set_self_of_lt s.stacked_ae (i + 1)
          (fitAE a Xt method (n_iter.getD i 0) (learn_rate.getD i 0) (alpha.getD i 0))
          aeDefault hlen
        simp only [e2, List.getD_cons_zero]
      · have harith : i + 1 + (j + 1) = (i + 1) + 1 + j := by omega
        have harith2 : i + (j + 1) = (i + 1) + j := by omega
        rw [harith, harith2]
        exact ih (i + 1) _ _ j (by simpa using Nat.lt_of_succ_lt_succ (by simpa using hj))
          (by simpa using harith ▸ hlen)

/-- C6: immediately after `pre_train` with data `X` returns, every pretrained
layer's weight matrix `wts_[i]` equals the encoding weight matrix (index 0 of
the weight collection) of trained stacked autoencoder `i` — the autoencoder
stored at position `i` of the returned state, before anything else mutates
it. -/
theorem c6_pre_train_copies_encoder_weights
    (fitAE : AE → Mat → String → ℕ → ℚ → ℚ → AE) (transform : AE → Mat → Mat)
    (s : DAEC) (X : Mat) (method : String) (n_iter : List ℕ)
    (learn_rate alpha : List ℚ)
    (hw : s.stacked_ae.length ≤ s.wts_.length) :
    ∀ i < s.stacked_ae.length,
      (pre_train fitAE transform s (some X) method n_iter learn_rate alpha).1.wts_.getD i []
        = ((pre_train fitAE transform s (some X) method n_iter learn_rate alpha).1.stacked_ae.getD i aeDefault).wts.headD [] := by
  intro i hi
  simp only [pre_train]
  rcases i with _ | k
  · obtain ⟨f1, f2⟩ := pre_trainLoop_frame fitAE transform method n_iter learn_rate alpha
      s.stacked_ae.tail 0 _ _ 0 le_rfl
    rw [f1, f2]
    simp only
    rw [getD_set_self_of_lt _ _ _ _ (by omega), getD_set_self_of_lt _ _ _ _ hi]
  · exact pre_trainLoop_copies fitAE transform method n_iter learn_rate alpha
      s.stacked_ae.tail 0 _ _ (k + 1) (by omega)
      (by simp only [List.length_tail]; omega)
      (by simpa using hi) (by simp only [List.length_set]; omega)

/-- C6 witness: the copy property at a concrete two-autoencoder instance with a
concrete fit function. -/
theorem c6_pre_train_copies_encoder_weights_witness :
    (⟨[aeDefault, aeDefault], [[], [], []], [], [], 0⟩ : DAEC).stacked_ae.length ≤
      (⟨[aeDefault, aeDefault], [[], [], []], [], [], 0⟩ : DAEC).wts_.length ∧
    ∀ i < (⟨[aeDefault, aeDefault], [[], [], []], [], [], 0⟩ : DAEC).stacked_ae.length,
      (pre_train (fun a _ _ n _ _ => { a with wts := [[[(n : ℚ)]]] }) (fun _ X => X)
          ⟨[aeDefault, aeDefault], [[], [], []], [], [], 0⟩
          (some [[1]]) "L-BFGS" [3, 4] [0, 0] [0, 0]).1.wts_.getD i []
        = ((pre_train (fun a _ _ n _ _ => { a with wts := [[[(n : ℚ)]]] }) (fun _ X => X)
          ⟨[aeDefault, aeDefault], [[], [], []], [], [], 0⟩
          (some [[1]]) "L-BFGS" [3, 4] [0, 0] [0, 0]).1.stacked_ae.getD i aeDefault).wts.headD [] :=
  ⟨by decide,
    c6_pre_train_copies_encoder_weights _ _ _ _ _ _ _ _ (by decide)⟩

/-- `getD` at an in-range index reads the actual element. -/
theorem getD_eq_getElem_of_lt {α : Type*} (l : List α) (i : ℕ) (d : α)
    (h : i < l.length) : l.getD i d = l[i] := by
  rw [List.getD_eq_getElem?_getD, List.getElem?_eq_getElem h, Option.getD_some]

/-- `getD` on the tail shifts the index by one. -/
theorem getD_tail {α : Type*} (l : List α) (i : ℕ) (d : α) :
    l.tail.getD i d = l.getD (i + 1) d := by
  rw [List.getD_eq_getElem?_getD, List.getElem?_tail, ← List.getD_eq_getElem?_getD]

/-- C9: the hyperparameter and budget lists are indexed one position behind the
autoencoder index for every autoencoder after the first: stacked autoencoder
`i ≥ 1` is constructed with `sae_decay[i-1], rho[i-1], beta[i-1]` (and topology
`n_hid[i-1] → n_hid[i]`), and `pre_train` fits it with budgets
`n_iter[i-1], learn_rate[i-1], alpha[i-1]` on the running transformed data. -/
theorem c9_hyperparameter_offset
    (initW : ℕ → ℕ → List Mat) (d : ℕ) (n_hid : List ℕ) (sae_decay rho beta : List ℚ)
    (fitAE : AE → Mat → String → ℕ → ℚ → ℚ → AE) (transform : AE → Mat → Mat)
    (s : DAEC) (X : Mat) (method : String) (n_iter : List ℕ) (learn_rate alpha : List ℚ)
    (i : ℕ) (h1 : 1 ≤ i) (h2 : i < n_hid.length) (h3 : i < s.stacked_ae.length) :
    (mkStackedAE initW d n_hid sae_decay rho beta).getD i aeDefault
      = mkAE initW (n_hid.getD (i - 1) 0) (n_hid.getD i 0)
          (sae_decay.getD (i - 1) 0) (rho.getD (i - 1) 0) (beta.getD (i - 1) 0) ∧
    ∃ X2,
      (pre_train fitAE transform s (some X) method n_iter learn_rate alpha).1.stacked_ae.getD i aeDefault
        = fitAE (s.stacked_ae.getD i aeDefault) X2 method
            (n_iter.getD (i - 1) 0) (learn_rate.getD (i - 1) 0) (alpha.getD (i - 1) 0) := by
  obtain ⟨k, rfl⟩ : ∃ k, i = k + 1 := ⟨i - 1, by omega⟩
  simp only [Nat.add_sub_cancel]
  constructor
  · have hk : k < ((n_hid.dropLast.zip n_hid.tail).enum.map (fun p =>
        mkAE initW p.2.1 p.2.2 (sae_decay.getD p.1 0) (rho.getD p.1 0) (beta.getD p.1 0))).length := by
      simp only [List.length_map, List.enum_length, List.length_zip, List.length_dropLast,
        List.length_tail]
      omega
    have hk1 : k < n_hid.dropLast.length := by
      simp only [List.length_dropLast]; omega
    have hk2 : k < n_hid.tail.length := by
      simp only [List.length_tail]; omega
    rw [mkStackedAE, List.getD_cons_succ, List.getD_eq_getElem?_getD,
      List.getElem?_eq_getElem hk, Option.getD_some]
    simp only [List.getElem_map, List.getElem_enum, List.getElem_zip,
      List.getElem_dropLast, List.getElem_tail]
    rw [getD_eq_getElem_of_lt n_hid k 0 (by omega),
      getD_eq_getElem_of_lt n_hid (k + 1) 0 h2]
  · simp only [pre_train]
    have hfb := pre_trainLoop_fit_budget fitAE transform method n_iter learn_rate alpha
      s.stacked_ae.tail 0
      ({ s with
          stacked_ae := s.stacked_ae.set 0 (fitAE (s.stacked_ae.headD aeDefault) X method
            (n_iter.getD 0 0) (learn_rate.getD 0 0) (alpha.getD 0 0)),
          wts_ := s.wts_.set 0 ((fitAE (s.stacked_ae.headD aeDefault) X method
            (n_iter.getD 0 0) (learn_rate.getD 0 0) (alpha.getD 0 0)).wts.headD []) })
      (transform (fitAE (s.stacked_ae.headD aeDefault) X method
        (n_iter.getD 0 0) (learn_rate.getD 0 0) (alpha.getD 0 0)) X)
      k (by simp only [List.length_tail]; omega)
      (by simp only [List.length_set]; omega)
    simp only [Nat.zero_add] at hfb
    rw [getD_tail, Nat.add_comm 1 k] at hfb
    exact hfb

/-- C9 witness: the offset indexing at the concrete index `i = 1` of a
two-hidden-layer instance. -/
theorem c9_hyperparameter_offset_witness :
    (1 ≤ 1 ∧ 1 < ([2, 3] : List ℕ).length ∧
      1 < (⟨[aeDefault, aeDefault], [[], [], []], [], [], 0⟩ : DAEC).stacked_ae.length) ∧
    ((mkStackedAE (fun _ _ => []) 1 [2, 3] [5, 6] [7, 8] [9, 10]).getD 1 aeDefault
      = mkAE (fun _ _ => []) (([2, 3] : List ℕ).getD 0 0) (([2, 3] : List ℕ).getD 1 0)
          (([5, 6] : List ℚ).getD 0 0) (([7, 8] : List ℚ).getD 0 0) (([9, 10] : List ℚ).getD 0 0) ∧
    ∃ X2,
      (pre_train (fun a _ _ n _ _ => { a with wts := [[[(n : ℚ)]]] }) (fun _ X => X)
          ⟨[aeDefault, aeDefault], [[], [], []], [], [], 0⟩
          (some [[1]]) "L-BFGS" [3, 4] [0, 0] [0, 0]).1.stacked_ae.getD 1 aeDefault
        = (fun (a : AE) (_ : Mat) (_ : String) (n : ℕ) (_ _ : ℚ) =>
            { a with wts := [[[(n : ℚ)]]] }) ((⟨[aeDefault, aeDefault], [[], [], []], [], [], 0⟩ : DAEC).stacked_ae.getD 1 aeDefault) X2 "L-BFGS"
            (([3, 4] : List ℕ).getD 0 0) (([0, 0] : List ℚ).getD 0 0) (([0, 0] : List ℚ).getD 0 0)) :=
  ⟨⟨le_rfl, by decide, by decide⟩,
    c9_hyperparameter_offset (fun _ _ => []) 1 [2, 3] [5, 6] [7, 8] [9, 10]
      (fun a _ _ n _ _ => { a with wts := [[[(n : ℚ)]]] }) (fun _ X => X)
      ⟨[aeDefault, aeDefault], [[], [], []], [], [], 0⟩ [[1]] "L-BFGS" [3, 4] [0, 0] [0, 0]
      1 le_rfl (by decide) (by decide)⟩

/-- C7: `predict` prepends a row of ones to `X`, runs forward propagation, and
returns the per-example arg-max class of the final activation; when a label
matrix `y` is supplied it additionally returns the misclassification rate
`1 − mean(pred == argmax(y))`, which lies in `[0, 1]` and equals `0` exactly
when every predicted arg-max index matches the label arg-max index. -/
theorem c7_predict_argmax_and_mce (computeAct : Mat → List Mat) (X y : Mat)
    (hm : 0 < (X.headD []).length)
    (hy : (y.headD []).length = (X.headD []).length) :
    (predict computeAct X (some y)).1 =
      (List.range (X.headD []).length).map (fun j =>
        argmaxIdx (matColAt
          ((computeAct ((List.replicate (X.headD []).length (1 : ℚ)) :: X)).getLastD []) j)) ∧
    ∃ r, (predict computeAct X (some y)).2 = some r ∧ 0 ≤ r ∧ r ≤ 1 ∧
      (r = 0 ↔ ∀ j < (X.headD []).length,
        (predict computeAct X (some y)).1.getD j 0 = argmaxIdx (matColAt y j)) := by
  refine ⟨rfl, ?_⟩
  set m := (X.headD []).length with hm0
  set pred := (predict computeAct X (some y)).1 with hpred0
  set labels := (List.range ((y.headD []).length)).map (fun j => argmaxIdx (matColAt y j))
    with hlab0
  have hfst : pred = (List.range m).map (fun j =>
      argmaxIdx (matColAt
        ((computeAct ((List.replicate m (1 : ℚ)) :: X)).getLastD []) j)) := rfl
  have hplen : pred.length = m := by
    rw [hfst, List.length_map, List.length_range]
  have hllen : labels.length = m := by
    rw [hlab0, List.length_map, List.length_range]
    exact hy
  have hsnd : (predict computeAct X (some y)).2
      = some (1 - (((pred.zip labels).countP (fun p => p.1 == p.2) : ℕ) : ℚ)
          / (pred.length : ℚ)) := rfl
  have hzlen : (pred.zip labels).length = m := by
    rw [List.length_zip, hplen, hllen, min_self]
  have hcle : (pred.zip labels).countP (fun p => p.1 == p.2) ≤ m := by
    calc (pred.zip labels).countP (fun p => p.1 == p.2) ≤ (pred.zip labels).length :=
          List.countP_le_length _
      _ = m := hzlen
  have hmQ : (0 : ℚ) < (m : ℚ) := by exact_mod_cast hm
  have hfrac0 : (0 : ℚ) ≤ (((pred.zip labels).countP (fun p => p.1 == p.2) : ℕ) : ℚ)
      / (pred.length : ℚ) := by
    apply div_nonneg <;> positivity
  have hfrac1 : (((pred.zip labels).countP (fun p => p.1 == p.2) : ℕ) : ℚ)
      / (pred.length : ℚ) ≤ 1 := by
    rw [hplen]
    rw [div_le_one hmQ]
    exact_mod_cast hcle
  refine ⟨_, hsnd, by linarith, by linarith, ?_⟩
  have hlabat : ∀ j < m, labels.getD j 0 = argmaxIdx (matColAt y j) := by
    intro j hj
    rw [hlab0, getD_eq_getElem_of_lt _ _ _ (by rw [List.length_map, List.length_range, hy]; exact hj)]
    simp
  constructor
  · intro h0 j hj
    have hfrac : (((pred.zip labels).countP (fun p => p.1 == p.2) : ℕ) : ℚ)
        / (pred.length : ℚ) = 1 := by linarith
    rw [hplen, div_eq_one_iff_eq (ne_of_gt hmQ)] at hfrac
    have hcnt : (pred.zip labels).countP (fun p => p.1 == p.2) = (pred.zip labels).length := by
      rw [hzlen]; exact_mod_cast hfrac
    have hall := List.countP_eq_length.mp hcnt
    have hjz : j < (pred.zip labels).length := by omega
    have hmem : (pred.zip labels)[j] ∈ pred.zip labels := List.getElem_mem _
    have hppj := hall _ hmem
    rw [List.getElem_zip] at hppj
    simp only [beq_iff_eq] at hppj
    rw [getD_eq_getElem_of_lt pred j 0 (by omega), ← hlabat j hj,
      getD_eq_getElem_of_lt labels j 0 (by omega)]
    exact hppj
  · intro hall
    have hcnt : (pred.zip labels).countP (fun p => p.1 == p.2) = (pred.zip labels).length := by
      apply List.countP_eq_length.mpr
      intro p hp
      obtain ⟨n, hn, hpn⟩ := List.mem_iff_getElem.mp hp
      rw [List.getElem_zip] at hpn
      have hnm : n < m := by omega
      have hpn2 := hall n hnm
      rw [getD_eq_getElem_of_lt pred n 0 (by omega)] at hpn2
      rw [← hlabat n hnm] at hpn2
      rw [getD_eq_getElem_of_lt labels n 0 (by omega)] at hpn2
      rw [← hpn]
      simpa [beq_iff_eq] using hpn2
    rw [hcnt, hzlen, hplen, div_self (ne_of_gt hmQ)]
    ring

/-- C7 witness: a concrete two-example instance where both arg-max predictions
match the labels, so the misclassification rate is 0. -/
theorem c7_predict_argmax_and_mce_witness :
    (0 < (([[0, 0]] : Mat).headD []).length ∧
      (([[1, 0], [0, 1]] : Mat).headD []).length = (([[0, 0]] : Mat).headD []).length) ∧
    ((predict (fun _ => [[[1, 0], [0, 1]]]) [[0, 0]] (some [[1, 0], [0, 1]])).1 =
      (List.range (([[0, 0]] : Mat).headD []).length).map (fun j =>
        argmaxIdx (matColAt
          (((fun (_ : Mat) => [[[(1 : ℚ), 0], [0, 1]]])
              ((List.replicate (([[0, 0]] : Mat).headD []).length (1 : ℚ)) :: [[0, 0]])).getLastD []) j)) ∧
    ∃ r, (predict (fun _ => [[[1, 0], [0, 1]]]) [[0, 0]] (some [[1, 0], [0, 1]])).2 = some r ∧
      0 ≤ r ∧ r ≤ 1 ∧
      (r = 0 ↔ ∀ j < (([[0, 0]] : Mat).headD []).length,
        (predict (fun _ => [[[1, 0], [0, 1]]]) [[0, 0]] (some [[1, 0], [0, 1]])).1.getD j 0
          = argmaxIdx (matColAt [[1, 0], [0, 1]] j))) :=
  ⟨⟨by decide, by decide⟩,
    c7_predict_argmax_and_mce (fun _ => [[[1, 0], [0, 1]]]) [[0, 0]] [[1, 0], [0, 1]]
      (by decide) (by decide)⟩

/-- The threaded error of `bpropLoop` is `dzFold`. -/
theorem bpropLoop_snd (mQ : ℚ) : ∀ (ps : List (Mat × Mat)) (dz : Mat),
    (bpropLoop mQ ps dz).2 = dzFold ps dz := by
  intro ps
  induction ps with
  | nil => intro dz; rfl
  | cons p rest ih =>
      intro dz
      obtain ⟨a, w⟩ := p
      simp only [bpropLoop, dzFold]
      exact ih _

/-- `bpropLoop` collects one gradient per walked pair. -/
theorem bpropLoop_fst_length (mQ : ℚ) : ∀ (ps : List (Mat × Mat)) (dz : Mat),
    (bpropLoop mQ ps dz).1.length = ps.length := by
  intro ps
  induction ps with
  | nil => intro dz; rfl
  | cons p rest ih =>
      intro dz
      obtain ⟨a, w⟩ := p
      simp only [bpropLoop, List.length_cons]
      rw [ih]

/-- Gradient `i` collected by `bpropLoop` is `1/m · aᵢ ⬝ errorᵢᵀ`, the error
being the one threaded through the first `i` walked pairs. -/
theorem bpropLoop_fst_getD (mQ : ℚ) : ∀ (ps : List (Mat × Mat)) (dz : Mat) (i : ℕ),
    i < ps.length →
    (bpropLoop mQ ps dz).1.getD i []
      = matScale (1 / mQ) (matMulT (ps.getD i ([], [])).1 (dzFold (ps.take i) dz)) := by
  intro ps
  induction ps with
  | nil => intro dz i hi; simp at hi
  | cons p rest ih =>
      intro dz i hi
      obtain ⟨a, w⟩ := p
      rcases i with _ | i
      · rfl
      · simp only [bpropLoop, List.getD_cons_succ, List.take_succ_cons, dzFold]
        exact ih (bpropStep a w dz) i (by simpa using hi)

/-- Folding the error through an appended pair list composes the folds. -/
theorem dzFold_append : ∀ (l1 l2 : List (Mat × Mat)) (dz : Mat),
    dzFold (l1 ++ l2) dz = dzFold l2 (dzFold l1 dz) := by
  intro l1
  induction l1 with
  | nil => intro l2 dz; rfl
  | cons p rest ih =>
      intro l2 dz
      obtain ⟨a, w⟩ := p
      simp only [List.cons_append, dzFold]
      exact ih _ _

/-- The head of a reversed list is the last element. -/
theorem headD_reverse {α : Type*} (l : List α) (d : α) : l.reverse.headD d = l.getLastD d := by
  rw [List.headD_eq_head?, List.head?_reverse, List.getLastD_eq_getLast?]

/-- The last element of a reversed list is the head. -/
theorem getLastD_reverse {α : Type*} (l : List α) (d : α) : l.reverse.getLastD d = l.headD d := by
  rw [List.getLastD_eq_getLast?, List.getLast?_reverse, List.headD_eq_head?]

/-- `headD` is `getD` at index 0. -/
theorem headD_eq_getD_zero {α : Type*} (l : List α) (d : α) : l.headD d = l.getD 0 d := by
  cases l <;> rfl

/-- `getLastD` is `getD` at the last index. -/
theorem getLastD_eq_getD {α : Type*} (l : List α) (d : α) :
    l.getLastD d = l.getD (l.length - 1) d := by
  rw [List.getLastD_eq_getLast?, List.getLast?_eq_getElem?, List.getD_eq_getElem?_getD]

/-- `getD` on a reversed list, for in-range indices. -/
theorem getD_reverse_of_lt {α : Type*} (l : List α) (i : ℕ) (d : α) (h : i < l.length) :
    l.reverse.getD i d = l.getD (l.length - 1 - i) d := by
  rw [List.getD_eq_getElem?_getD, List.getElem?_reverse h, ← List.getD_eq_getElem?_getD]

/-- `getD` on a zip, for in-range indices. -/
theorem getD_zip_of_lt {α β : Type*} (l1 : List α) (l2 : List β) (i : ℕ) (d1 : α) (d2 : β)
    (h1 : i < l1.length) (h2 : i < l2.length) :
    (l1.zip l2).getD i (d1, d2) = (l1.getD i d1, l2.getD i d2) := by
  have hz : i < (l1.zip l2).length := by
    rw [List.length_zip]; exact lt_min h1 h2
  rw [getD_eq_getElem_of_lt _ _ _ hz, List.getElem_zip,
    getD_eq_getElem_of_lt _ _ _ h1, getD_eq_getElem_of_lt _ _ _ h2]

/-- `getD` on an append. -/
theorem getD_append {α : Type*} (l1 l2 : List α) (n : ℕ) (d : α) :
    (l1 ++ l2).getD n d = if n < l1.length then l1.getD n d else l2.getD (n - l1.length) d := by
  rw [List.getD_eq_getElem?_getD, List.getElem?_append]
  split <;> rw [← List.getD_eq_getElem?_getD]

/-- Threading the error through the first `i` reversed layer pairs yields
exactly the claim's error signal `errFromTop i`. -/
theorem dzFold_take_errFromTop (wts act : List Mat) (y : Mat)
    (hlen : act.length = wts.length) :
    ∀ i, i ≤ wts.length - 1 →
      dzFold (((act.reverse.tail).zip wts.reverse).take i) (matSub (act.reverse.headD []) y)
        = errFromTop wts act y i := by
  intro i
  induction i with
  | zero =>
      intro _
      simp only [List.take_zero, dzFold]
      rw [headD_reverse]
      rfl
  | succ i ih =>
      intro hi
      have hip : i < ((act.reverse.tail).zip wts.reverse).length := by
        rw [List.length_zip, List.length_tail, List.length_reverse, List.length_reverse, hlen]
        refine lt_min (by omega) (by omega)
      rw [List.take_succ, List.getElem?_eq_getElem hip]
      simp only [Option.toList_some]
      rw [dzFold_append, ih (by omega)]
      rw [← getD_eq_getElem_of_lt _ _ ([], []) hip]
      have h1 : i < (act.reverse.tail).length := by
        rw [List.length_tail, List.length_reverse, hlen]; omega
      have h2 : i < wts.reverse.length := by
        rw [List.length_reverse]; omega
      rw [getD_zip_of_lt _ _ _ _ _ h1 h2, getD_tail,
        getD_reverse_of_lt _ _ _ (by rw [List.length_reverse] at h2; omega : i + 1 < act.length),
        getD_reverse_of_lt _ _ _ (by rw [List.length_reverse] at h2; exact h2)]
      have e1 : act.length - 1 - (i + 1) = act.length - 2 - i := by omega
      rw [e1]
      show dzFold [(act.getD (act.length - 2 - i) [], wts.getD (wts.length - 1 - i) [])]
        (errFromTop wts act y i) = errFromTop wts act y (i + 1)
      simp only [dzFold, errFromTop]

/-- `bprop`'s reverse-then-re-reverse computation equals the forward-indexed
gradient list `bpropSpec` built from the claim's error recursion, whenever the
activation cache has one entry per weight matrix. -/
theorem bprop_eq_bpropSpec (decay : ℚ) (X y : Mat) (wts act : List Mat)
    (hlen : act.length = wts.length) (hL : 0 < wts.length) :
    bprop decay X y wts act = bpropSpec decay X y wts act := by
  have hplen : ((act.reverse.tail).zip wts.reverse).length = wts.length - 1 := by
    rw [List.length_zip, List.length_tail, List.length_reverse, List.length_reverse, hlen]
    exact min_eq_left (by omega)
  have hblen : (bprop decay X y wts act).length = wts.length := by
    simp only [bprop]
    rw [List.length_reverse, List.length_append, bpropLoop_fst_length, hplen]
    simp only [List.length_singleton]
    omega
  have hslen : (bpropSpec decay X y wts act).length = wts.length := by
    simp only [bpropSpec, List.length_map, List.length_range]
  apply List.ext_getElem (by rw [hblen, hslen])
  intro k hk1 hk2
  rw [← getD_eq_getElem_of_lt _ _ [] hk1, ← getD_eq_getElem_of_lt _ _ [] hk2]
  have hkL : k < wts.length := by rw [← hblen]; exact hk1
  have hrhs : (bpropSpec decay X y wts act).getD k []
      = if k = 0 then
          addDecayRows decay (wts.getD 0 [])
            (matScale (1 / ((X.headD []).length : ℚ))
              (matMulT X (errFromTop wts act y (wts.length - 1))))
        else
          matScale (1 / ((X.headD []).length : ℚ))
            (matMulT (act.getD (k - 1) []) (errFromTop wts act y (wts.length - 1 - k))) := by
    rw [getD_eq_getElem_of_lt _ _ _ (by rw [hslen]; exact hkL)]
    simp only [bpropSpec, List.getElem_map, List.getElem_range]
  rw [hrhs]
  simp only [bprop]
  rw [getD_reverse_of_lt _ _ _
    (by rw [List.length_append, bpropLoop_fst_length, hplen]; simp only [List.length_singleton]; omega)]
  rw [List.length_append, bpropLoop_fst_length, hplen]
  simp only [List.length_singleton]
  rw [getD_append, bpropLoop_fst_length, hplen]
  by_cases hk0 : k = 0
  · subst hk0
    rw [if_neg (by omega), if_pos rfl]
    have hidx : wts.length - 1 + 1 - 1 - 0 - (wts.length - 1) = 0 := by omega
    rw [hidx]
    simp only [List.getD_cons_zero]
    rw [getLastD_reverse, headD_eq_getD_zero, bpropLoop_snd]
    have htake : (act.reverse.tail).zip wts.reverse
        = ((act.reverse.tail).zip wts.reverse).take (wts.length - 1) := by
      rw [← hplen, List.take_length]
    rw [htake, dzFold_take_errFromTop wts act y hlen (wts.length - 1) le_rfl]
  · rw [if_pos (by omega), if_neg hk0]
    have hidx : wts.length - 1 + 1 - 1 - k = wts.length - 1 - k := by omega
    rw [hidx]
    rw [bpropLoop_fst_getD _ _ _ _ (by rw [hplen]; omega)]
    rw [dzFold_take_errFromTop wts act y hlen (wts.length - 1 - k) (by omega)]
    have h1 : wts.length - 1 - k < (act.reverse.tail).length := by
      rw [List.length_tail, List.length_reverse, hlen]; omega
    have h2 : wts.length - 1 - k < wts.reverse.length := by
      rw [List.length_reverse]; omega
    rw [getD_zip_of_lt _ _ _ _ _ h1 h2, getD_tail,
      getD_reverse_of_lt _ _ _ (by rw [hlen]; omega : wts.length - 1 - k + 1 < act.length)]
    have hidx2 : act.length - 1 - (wts.length - 1 - k + 1) = k - 1 := by omega
    rw [hidx2]

/-- Entrywise combination of two matrices of one shape keeps the shape. -/
theorem IsMat_zipWith (f : ℚ → ℚ → ℚ) {r c : ℕ} {A B : Mat}
    (hA : IsMat r c A) (hB : IsMat r c B) :
    IsMat r c (List.zipWith (List.zipWith f) A B) := by
  obtain ⟨hA1, hA2⟩ := hA
  obtain ⟨hB1, hB2⟩ := hB
  constructor
  · rw [List.length_zipWith, hA1, hB1, min_self]
  · intro row hrow
    obtain ⟨n, hn, hrow⟩ := List.mem_iff_getElem.mp hrow
    rw [List.getElem_zipWith] at hrow
    rw [← hrow, List.length_zipWith, hA2 _ (List.getElem_mem _), hB2 _ (List.getElem_mem _),
      min_self]

/-- Mapping a function over every entry keeps the shape. -/
theorem IsMat_map_rows (f : ℚ → ℚ) {r c : ℕ} {A : Mat} (hA : IsMat r c A) :
    IsMat r c (A.map (List.map f)) := by
  obtain ⟨h1, h2⟩ := hA
  refine ⟨by rw [List.length_map, h1], ?_⟩
  intro row hrow
  obtain ⟨row0, hrow0, rfl⟩ := List.mem_map.mp hrow
  rw [List.length_map]
  exact h2 _ hrow0

/-- `np.dot(A, B.T)` of an `rA × cA` and an `rB × cB` matrix is `rA × rB`. -/
theorem IsMat_matMulT {rA cA rB cB : ℕ} {A B : Mat} (hA : IsMat rA cA A)
    (hB : IsMat rB cB B) : IsMat rA rB (matMulT A B) := by
  obtain ⟨hA1, -⟩ := hA
  obtain ⟨hB1, -⟩ := hB
  constructor
  · simp only [matMulT, List.length_map, hA1]
  · intro row hrow
    simp only [matMulT] at hrow
    obtain ⟨ra, -, rfl⟩ := List.mem_map.mp hrow
    rw [List.length_map, hB1]

/-- `np.dot(A, B)` of an `rA × n` and a (nonempty) `n × c` matrix is `rA × c`. -/
theorem IsMat_matMul {rA n c : ℕ} {A B : Mat} (hA : IsMat rA n A) (hB : IsMat n c B)
    (hn : 0 < n) : IsMat rA c (matMul A B) := by
  obtain ⟨hA1, -⟩ := hA
  obtain ⟨hB1, hB2⟩ := hB
  have hw : matWidth B = c := by
    rcases B with _ | ⟨b0, B2⟩
    · simp only [List.length_nil] at hB1; omega
    · simp only [matWidth, List.headD_cons]
      exact hB2 b0 (List.mem_cons_self _ _)
  constructor
  · simp only [matMul, List.length_map, hA1]
  · intro row hrow
    simp only [matMul] at hrow
    obtain ⟨ra, -, rfl⟩ := List.mem_map.mp hrow
    rw [List.length_map, List.length_range, hw]

/-- Dropping the first row of an `(r+1) × c` matrix leaves an `r × c` matrix. -/
theorem IsMat_tail {r c : ℕ} {M : Mat} (h : IsMat (r + 1) c M) : IsMat r c M.tail := by
  obtain ⟨h1, h2⟩ := h
  refine ⟨by rw [List.length_tail, h1, Nat.add_sub_cancel], ?_⟩
  intro row hrow
  exact h2 _ (List.mem_of_mem_tail hrow)

/-- Adding the decay rows keeps an `(r+1) × c` gradient an `(r+1) × c` matrix. -/
theorem IsMat_addDecayRows {r c : ℕ} {g w : Mat} (decay : ℚ)
    (hg : IsMat (r + 1) c g) (hw : IsMat (r + 1) c w) :
    IsMat (r + 1) c (addDecayRows decay w g) := by
  rcases g with _ | ⟨g0, grest⟩
  · obtain ⟨h1, -⟩ := hg
    simp only [List.length_nil] at h1
    omega
  · obtain ⟨hg1, hg2⟩ := hg
    simp only [List.length_cons] at hg1
    have hgrest : IsMat r c grest :=
      ⟨by omega, fun x hx => hg2 x (List.mem_cons_of_mem _ hx)⟩
    have hadd : IsMat r c (matAdd grest (matScale decay w.tail)) :=
      IsMat_zipWith _ hgrest (IsMat_map_rows _ (IsMat_tail hw))
    refine ⟨?_, ?_⟩
    · simp only [addDecayRows, List.length_cons, hadd.1]
    · intro row hrow
      simp only [addDecayRows, List.mem_cons] at hrow
      rcases hrow with rfl | hrow
      · exact hg2 _ (List.mem_cons_self _ _)
      · exact hadd.2 _ hrow

/-- The claim's error signal entering the layer `r` steps below the output is a
`dims[L−r] × m` matrix, for well-shaped weights, activations and labels. -/
theorem errFromTop_shape (wts act : List Mat) (y : Mat) (dims : List ℕ) (m : ℕ)
    (hlen : act.length = wts.length) (hL : 0 < wts.length)
    (hdims : dims.length = wts.length + 1)
    (hpos : ∀ k < dims.length, 0 < dims.getD k 0)
    (hwts : ∀ k < wts.length, IsMat (dims.getD k 0 + 1) (dims.getD (k + 1) 0) (wts.getD k []))
    (hact : ∀ k < wts.length - 1, IsMat (dims.getD (k + 1) 0 + 1) m (act.getD k []))
    (hactL : IsMat (dims.getD wts.length 0) m (act.getD (wts.length - 1) []))
    (hy : IsMat (dims.getD wts.length 0) m y) :
    ∀ r, r ≤ wts.length - 1 →
      IsMat (dims.getD (wts.length - r) 0) m (errFromTop wts act y r) := by
  intro r
  induction r with
  | zero =>
      intro _
      simp only [errFromTop, Nat.sub_zero]
      have hlast : act.getLastD [] = act.getD (wts.length - 1) [] := by
        rw [getLastD_eq_getD, hlen]
      rw [hlast]
      exact IsMat_zipWith _ hactL hy
  | succ r ih =>
      intro hr
      simp only [errFromTop]
      have hw := hwts (wts.length - 1 - r) (by omega)
      have ha := hact (act.length - 2 - r) (by omega)
      have hidxa : act.length - 2 - r + 1 = wts.length - 1 - r := by omega
      have hidxw : wts.length - 1 - r + 1 = wts.length - r := by omega
      rw [hidxa] at ha
      rw [hidxw] at hw
      have he := ih (by omega)
      have hmul := IsMat_matMul hw he (hpos _ (by omega))
      have hh2 := IsMat_zipWith (fun a b => a * b)
        (IsMat_zipWith (fun a b => a * b) hmul ha) (IsMat_map_rows (fun x => 1 - x) ha)
      have hidx3 : wts.length - (r + 1) = wts.length - 1 - r := by omega
      rw [hidx3]
      exact IsMat_tail hh2

/-- C4: in `bprop` the output-layer error is the final softmax activation minus
the one-hot label matrix; every earlier sigmoid layer's error is the
back-propagated error times `a·(1−a)` with the bias row (row 0) removed (the
`errFromTop` recursion); and the result is one gradient matrix per weight
matrix, in original layer order, each matching its weight matrix's shape
`(dims[k]+1) × dims[k+1]` exactly. -/
theorem c4_bprop_errors_and_shapes (decay : ℚ) (X y : Mat) (wts act : List Mat)
    (dims : List ℕ) (m : ℕ)
    (hlen : act.length = wts.length) (hL : 0 < wts.length)
    (hdims : dims.length = wts.length + 1)
    (hpos : ∀ k < dims.length, 0 < dims.getD k 0)
    (hwts : ∀ k < wts.length, IsMat (dims.getD k 0 + 1) (dims.getD (k + 1) 0) (wts.getD k []))
    (hact : ∀ k < wts.length - 1, IsMat (dims.getD (k + 1) 0 + 1) m (act.getD k []))
    (hactL : IsMat (dims.getD wts.length 0) m (act.getD (wts.length - 1) []))
    (hX : IsMat (dims.getD 0 0 + 1) m X)
    (hy : IsMat (dims.getD wts.length 0) m y) :
    bprop decay X y wts act = bpropSpec decay X y wts act ∧
    (bprop decay X y wts act).length = wts.length ∧
    ∀ k < wts.length,
      IsMat (dims.getD k 0 + 1) (dims.getD (k + 1) 0)
        ((bprop decay X y wts act).getD k []) := by
  have heq := bprop_eq_bpropSpec decay X y wts act hlen hL
  have hslen : (bpropSpec decay X y wts act).length = wts.length := by
    simp only [bpropSpec, List.length_map, List.length_range]
  refine ⟨heq, by rw [heq, hslen], ?_⟩
  intro k hk
  rw [heq]
  have hrhs : (bpropSpec decay X y wts act).getD k []
      = if k = 0 then
          addDecayRows decay (wts.getD 0 [])
            (matScale (1 / ((X.headD []).length : ℚ))
              (matMulT X (errFromTop wts act y (wts.length - 1))))
        else
          matScale (1 / ((X.headD []).length : ℚ))
            (matMulT (act.getD (k - 1) []) (errFromTop wts act y (wts.length - 1 - k))) := by
    rw [getD_eq_getElem_of_lt _ _ _ (by rw [hslen]; exact hk)]
    simp only [bpropSpec, List.getElem_map, List.getElem_range]
  rw [hrhs]
  by_cases hk0 : k = 0
  · subst hk0
    rw [if_pos rfl]
    have he := errFromTop_shape wts act y dims m hlen hL hdims hpos hwts hact hactL hy
      (wts.length - 1) le_rfl
    have hidx : wts.length - (wts.length - 1) = 1 := by omega
    rw [hidx] at he
    exact IsMat_addDecayRows decay
      (IsMat_map_rows _ (IsMat_matMulT hX he)) (hwts 0 hL)
  · rw [if_neg hk0]
    have he := errFromTop_shape wts act y dims m hlen hL hdims hpos hwts hact hactL hy
      (wts.length - 1 - k) (by omega)
    have hidx : wts.length - (wts.length - 1 - k) = k + 1 := by omega
    rw [hidx] at he
    have ha := hact (k - 1) (by omega)
    have hidx2 : k - 1 + 1 = k := by omega
    rw [hidx2] at ha
    exact IsMat_map_rows _ (IsMat_matMulT ha he)

/-- C4 witness: the error/shape characterization at a concrete two-layer
network with one-dimensional layers and a single example. -/
theorem c4_bprop_errors_and_shapes_witness :
    ((([[[2], [3]], [[4]]] : List Mat).length = ([[[5], [7]], [[11], [13]]] : List Mat).length ∧
      0 < ([[[5], [7]], [[11], [13]]] : List Mat).length ∧
      ([1, 1, 1] : List ℕ).length = ([[[5], [7]], [[11], [13]]] : List Mat).length + 1 ∧
      (∀ k < ([1, 1, 1] : List ℕ).length, 0 < ([1, 1, 1] : List ℕ).getD k 0) ∧
      (∀ k < ([[[5], [7]], [[11], [13]]] : List Mat).length,
        IsMat (([1, 1, 1] : List ℕ).getD k 0 + 1) (([1, 1, 1] : List ℕ).getD (k + 1) 0)
          (([[[5], [7]], [[11], [13]]] : List Mat).getD k [])) ∧
      (∀ k < ([[[5], [7]], [[11], [13]]] : List Mat).length - 1,
        IsMat (([1, 1, 1] : List ℕ).getD (k + 1) 0 + 1) 1
          (([[[2], [3]], [[4]]] : List Mat).getD k [])) ∧
      IsMat (([1, 1, 1] : List ℕ).getD ([[[5], [7]], [[11], [13]]] : List Mat).length 0) 1
        (([[[2], [3]], [[4]]] : List Mat).getD (([[[5], [7]], [[11], [13]]] : List Mat).length - 1) []) ∧
      IsMat (([1, 1, 1] : List ℕ).getD 0 0 + 1) 1 ([[1], [2]] : Mat) ∧
      IsMat (([1, 1, 1] : List ℕ).getD ([[[5], [7]], [[11], [13]]] : List Mat).length 0) 1
        ([[3]] : Mat)) ∧
    (bprop 1 [[1], [2]] [[3]] [[[5], [7]], [[11], [13]]] [[[2], [3]], [[4]]]
        = bpropSpec 1 [[1], [2]] [[3]] [[[5], [7]], [[11], [13]]] [[[2], [3]], [[4]]] ∧
      (bprop 1 [[1], [2]] [[3]] [[[5], [7]], [[11], [13]]] [[[2], [3]], [[4]]]).length
        = ([[[5], [7]], [[11], [13]]] : List Mat).length ∧
      ∀ k < ([[[5], [7]], [[11], [13]]] : List Mat).length,
        IsMat (([1, 1, 1] : List ℕ).getD k 0 + 1) (([1, 1, 1] : List ℕ).getD (k + 1) 0)
          ((bprop 1 [[1], [2]] [[3]] [[[5], [7]], [[11], [13]]] [[[2], [3]], [[4]]]).getD k []))) :=
  ⟨⟨by decide, by decide, by decide, by decide, by decide, by decide, by decide, by decide,
      by decide⟩,
    c4_bprop_errors_and_shapes 1 [[1], [2]] [[3]] [[[5], [7]], [[11], [13]]]
      [[[2], [3]], [[4]]] [1, 1, 1] 1 (by decide) (by decide) (by decide) (by decide)
      (by decide) (by decide) (by decide) (by decide) (by decide)⟩

/-- C5: the decay placement is inconsistent in the source.  `cost_function`
adds `0.5·decay·Σ(wts[-1][1:]²)` over the *final* weight matrix only, but in
`bprop`, after `wts = wts[::-1]` (line 76), the expression `wts[-1]` on line 92
denotes the *original first* weight matrix, so `decay·wts[-1][1:]` is added to
the non-bias rows of the first layer's gradient — a pretrained layer — and no
decay reaches the final gradient.  On a concrete two-layer instance: switching
`decay` from 0 to 1 changes returned gradient 0 and leaves gradient 1 (the
final layer) unchanged, the added rows being `1·wts[0][1:]`, while the same
switch changes the cost by `0.5·Σ(wts[1][1:]²)`. -/
theorem c5_decay_on_wrong_gradient :
    ((bprop 1 [[1], [2]] [[3]] [[[5], [7]], [[11], [13]]] [[[2], [3]], [[4]]]).getD 0 []
        ≠ (bprop 0 [[1], [2]] [[3]] [[[5], [7]], [[11], [13]]] [[[2], [3]], [[4]]]).getD 0 [] ∧
      (bprop 1 [[1], [2]] [[3]] [[[5], [7]], [[11], [13]]] [[[2], [3]], [[4]]]).getD 1 []
        = (bprop 0 [[1], [2]] [[3]] [[[5], [7]], [[11], [13]]] [[[2], [3]], [[4]]]).getD 1 [] ∧
      (bprop 1 [[1], [2]] [[3]] [[[5], [7]], [[11], [13]]] [[[2], [3]], [[4]]]).getD 0 []
        = [[-78], [-149]] ∧
      (bprop 0 [[1], [2]] [[3]] [[[5], [7]], [[11], [13]]] [[[2], [3]], [[4]]]).getD 0 []
        = [[-78], [-156]] ∧
      cost_function (fun _ => 0) 1 [[3]] [[4]] [[[5], [7]], [[11], [13]]]
          - cost_function (fun _ => 0) 0 [[3]] [[4]] [[[5], [7]], [[11], [13]]]
        = 1 / 2 * 169) ∧
    ∀ (log : ℚ → ℚ) (decay : ℚ) (y aL : Mat) (wts : List Mat),
      cost_function log decay y aL wts
        = crossEntMean log y aL + 1 / 2 * decay * sumSq ((wts.getLastD []).tail) := by
  refine ⟨⟨?_, ?_, ?_, ?_, ?_⟩, fun log decay y aL wts => rfl⟩ <;>
    norm_num [bprop, bpropLoop, bpropStep, addDecayRows, matMulT, matMul, matScale, matAdd,
      matSub, hadamard, oneMinus, dot, matColAt, matWidth, List.range_succ,
      cost_function, crossEntMean, sumSq]
theorem c2_pre_train_fits_copies_no_finetune_witness :
    PTEvent.fineTune ∉
      (pre_train (fun a _ _ _ _ _ => a) (fun _ X => X)
        ⟨[aeDefault, aeDefault], [[], [], []], [], [], 0⟩
        (some [[1]]) "CG" [1, 1] [1, 1] [1, 1]).2 ∧
    ∀ i < (⟨[aeDefault, aeDefault], [[], [], []], [], [], 0⟩ : DAEC).stacked_ae.length,
      PTEvent.fitSAE i ∈
        (pre_train (fun a _ _ _ _ _ => a) (fun _ X => X)
          ⟨[aeDefault, aeDefault], [[], [], []], [], [], 0⟩
          (some [[1]]) "CG" [1, 1] [1, 1] [1, 1]).2 ∧
      PTEvent.copyWeights i ∈
        (pre_train (fun a _ _ _ _ _ => a) (fun _ X => X)
          ⟨[aeDefault, aeDefault], [[], [], []], [], [], 0⟩
          (some [[1]]) "CG" [1, 1] [1, 1] [1, 1]).2 :=
  c2_pre_train_fits_copies_no_finetune _ _ _ _ _ _ _ _
